import Mathlib

/-
A shallow embedding of the slant configuration parser (src/slant-config.c).

Tokens are the whitespace-separated words of the configuration file.  Every
parser works on the list of tokens that remain, mirroring the token cursor
(struct parse) of the C code: the C position p.pos corresponds to dropping
the first p.pos tokens.

Failures carry the error kind together with the state of the configuration
at the point of failure and the tokens that remain there.  Both extra
components are needed to model the top-level driver of config_parse
faithfully: when a statement parser fails, the driver breaks out of its loop
and then only checks p.pos != p.toksz, so a failure that happens exactly at
the end of the token array is treated as an overall success, keeping every
mutation the failing statement parser already made to the configuration.

The error kind oob stands for the crashing outcomes: a violated
assert(p->pos < p->toksz) (tok_eq, tok_eq_adv, parse_waittime, and the
urlsz >= count assert of parse_server_args) or a raw read of
p->toks[p->pos] past the end of the token array (the errlog value in
parse_layout and the waittime value in parse_server_args).  Those abort the
process, so the driver propagates them instead of applying the
position-at-end success rule.

On failure paths whose error is neither eof nor oob the remaining tokens are
provably non-empty (the offending token exists), so config_parse returns
failure there and the partial configuration carried in the error is never
observed; it is still threaded so that the driver rule above can be stated
uniformly.

Loops whose recursion is not structural (the statement loop of the driver,
the statement loop of parse_layout and the box loop of parse_layout_host)
are written with an explicit fuel counter that bounds the number of loop
iterations; each iteration consumes at least one token, so the entry
function passes the length of the remaining token list as fuel and the
fuel-exhausted branches are unreachable.
-/

inductive Err where
  | eof
  | expect
  | unknown
  | range
  | emptyServers
  | dup
  | oob
deriving DecidableEq

inductive DrawCat where
  | cpu
  | mem
  | net
  | disc
  | link
  | host
  | procs
  | rprocs
  | files
deriving DecidableEq

/- struct nconfig: a polled host (url duplicated from the token with strdup, waittime 0
meaning no per-host override). -/
structure NConfig where
  url : String
  waittime : Nat
deriving DecidableEq

/- struct drawbox: one on-screen box (cat plus the args bit set). -/
structure DrawBox where
  cat : DrawCat
  args : Nat
deriving DecidableEq

/- struct draw: the layout (zeroed by calloc: header = 0, errlog = 0, no boxes). -/
structure Draw where
  header : Bool
  errlog : Nat
  box : List DrawBox
deriving DecidableEq

/- struct config: waittime (the global one), urls and the optional draw. -/
structure Cfg where
  waittime : Nat
  urls : List NConfig
  draw : Option Draw
deriving DecidableEq

instance {ε α : Type} [DecidableEq ε] [DecidableEq α] : DecidableEq (Except ε α) :=
  fun x y =>
    match x, y with
    | .ok a, .ok b =>
      match decEq a b with
      | isTrue h => isTrue (h ▸ rfl)
      | isFalse h => isFalse (fun hc => h (Except.ok.inj hc))
    | .error a, .error b =>
      match decEq a b with
      | isTrue h => isTrue (h ▸ rfl)
      | isFalse h => isFalse (fun hc => h (Except.error.inj hc))
    | .ok _, .error _ => isFalse (fun hc => Except.noConfusion hc)
    | .error _, .ok _ => isFalse (fun hc => Except.noConfusion hc)

def semiTok : String := ";"

def obrace : String := "\x7b"

def cbrace : String := "\x7d"

def kw_servers : String := "servers"

def kw_layout : String := "layout"

def kw_waittime : String := "waittime"

def kw_header : String := "header"

def kw_errlog : String := "errlog"

def kw_host : String := "host"

def kw_cpu : String := "cpu"

def kw_mem : String := "mem"

def kw_net : String := "net"

def kw_disc : String := "disc"

def kw_link : String := "link"

def kw_nprocs : String := "nprocs"

def kw_rprocs : String := "rprocs"

def kw_nfiles : String := "nfiles"

def intMax : Nat := 2147483647

def digitVal? (c : Char) : Option Nat :=
  if '0' ≤ c ∧ c ≤ '9' then some (c.toNat - Char.toNat '0') else none

def parseDecAux : List Char → Nat → Option Nat
  | [], acc => some acc
  | c :: cs, acc =>
    match digitVal? c with
    | some d => parseDecAux cs (acc * 10 + d)
    | none => none

/- The value of a non-empty all-digit character list, most significant digit
first; none on an empty list or any non-digit character. -/
def parseDec? : List Char → Option Nat
  | [] => none
  | c :: cs => parseDecAux (c :: cs) 0

/- The strtonum(3) calls of the C code, specialised to the non-negative
lower bounds used there (15 and 0): base-10 with an optional sign, no
trailing garbage, and the result must be within the inclusive bounds.  A
token with a minus sign denotes a non-positive value, which lies in the
range exactly when the value is 0 and the lower bound is 0.  Tokens never
contain whitespace, so the leading-whitespace tolerance of strtoll is moot. -/
def strtonum? (s : String) (mi ma : Nat) : Option Nat :=
  match s.data with
  | [] => none
  | c :: cs =>
    if c = '-' then
      match parseDec? cs with
      | some n => if n = 0 ∧ mi = 0 then some 0 else none
      | none => none
    else if c = '+' then
      match parseDec? cs with
      | some n => if mi ≤ n ∧ n ≤ ma then some n else none
      | none => none
    else
      match parseDec? (c :: cs) with
      | some n => if mi ≤ n ∧ n ≤ ma then some n else none
      | none => none

def isWS (c : Char) : Bool := c = ' ' ∨ c = '\t' ∨ c = '\r' ∨ c = '\n'

def tokenizeAux : List Char → List Char → List String
  | [], [] => []
  | [], acc => [String.mk acc.reverse]
  | c :: cs, acc =>
    if isWS c then
      match acc with
      | [] => tokenizeAux cs []
      | _ :: _ => String.mk acc.reverse :: tokenizeAux cs []
    else tokenizeAux cs (c :: acc)

/- The strsep loop of config_parse: maximal runs of non-whitespace
characters become tokens, empty pieces are skipped. -/
def tokenize (s : String) : List String := tokenizeAux s.data []

/-- Modelled from the spec: the option flag constants (CPU_QMIN_BARS,
CPU_QMIN, ..., FILES_YEAR, HOST_ACCESS, LINK_IP, ...) come from slant.h,
which is not among the sources here.  Per the spec, each option keyword sets
exactly one bit, so each keyword of a category is assigned its own distinct
bit.  The list order of each table mirrors the order of the tok_eq_adv
chain of the corresponding loop of parse_layout_host. -/
def cpuOpts : List (String × Nat) :=
  [("qmin_bars", 1), ("qmin", 2), ("min", 4), ("hour", 8),
   ("day", 16), ("week", 32), ("year", 64)]

/-- Modelled from the spec: see cpuOpts. -/
def memOpts : List (String × Nat) :=
  [("qmin_bars", 1), ("qmin", 2), ("min", 4), ("hour", 8),
   ("day", 16), ("week", 32), ("year", 64)]

/-- Modelled from the spec: see cpuOpts. -/
def netOpts : List (String × Nat) :=
  [("qmin", 1), ("min", 2), ("hour", 4), ("day", 8), ("week", 16), ("year", 32)]

/-- Modelled from the spec: see cpuOpts. -/
def discOpts : List (String × Nat) :=
  [("qmin", 1), ("min", 2), ("hour", 4), ("day", 8), ("week", 16), ("year", 32)]

/-- Modelled from the spec: see cpuOpts. -/
def linkOpts : List (String × Nat) :=
  [("ip", 1), ("state", 2), ("access", 4)]

/-- Modelled from the spec: the host category accepts no option keywords. -/
def hostOpts : List (String × Nat) := []

/-- Modelled from the spec: see cpuOpts. -/
def procsOpts : List (String × Nat) :=
  [("qmin_bars", 1), ("qmin", 2), ("min", 4), ("hour", 8),
   ("day", 16), ("week", 32), ("year", 64)]

/-- Modelled from the spec: see cpuOpts; the rprocs loop of the C code tests
qmin before qmin_bars, which the list order mirrors. -/
def rprocsOpts : List (String × Nat) :=
  [("qmin", 2), ("qmin_bars", 1), ("min", 4), ("hour", 8),
   ("day", 16), ("week", 32), ("year", 64)]

/-- Modelled from the spec: see rprocsOpts. -/
def filesOpts : List (String × Nat) :=
  [("qmin", 2), ("qmin_bars", 1), ("min", 4), ("hour", 8),
   ("day", 16), ("week", 32), ("year", 64)]

/-- Modelled from the spec: HOST_ACCESS, the fixed flag every host box
carries (b->args = HOST_ACCESS in parse_layout_host). -/
def HOST_ACCESS : Nat := 1

/- The category dispatch of parse_layout_host: keyword, category constant,
initial args value (memset 0, except host which is set to HOST_ACCESS), and
the option keyword table of the loop for that category, in source order. -/
def boxCat (t : String) : Option (DrawCat × Nat × List (String × Nat)) :=
  if t = kw_cpu then some (.cpu, 0, cpuOpts)
  else if t = kw_mem then some (.mem, 0, memOpts)
  else if t = kw_net then some (.net, 0, netOpts)
  else if t = kw_disc then some (.disc, 0, discOpts)
  else if t = kw_link then some (.link, 0, linkOpts)
  else if t = kw_host then some (.host, HOST_ACCESS, hostOpts)
  else if t = kw_nprocs then some (.procs, 0, procsOpts)
  else if t = kw_rprocs then some (.rprocs, 0, rprocsOpts)
  else if t = kw_nfiles then some (.files, 0, filesOpts)
  else none

/-- Modelled from the spec: the set of option bits legal for a category is
the union of the flags of the option keywords of that category (section 4.4
table), and for host its fixed access flag. -/
def legalMask : DrawCat → Nat
  | .cpu => 127
  | .mem => 127
  | .net => 63
  | .disc => 63
  | .link => 7
  | .host => 1
  | .procs => 127
  | .rprocs => 127
  | .files => 127

/- parse_waittime: "waittime" num ";".  Called with the tokens after the
keyword.  An empty remainder violates the assert (and the following raw
read), hence oob.  cfg->waittime receives the strtonum result even when
strtonum fails (it returns 0 then), before the error is noticed. -/
def parse_waittime (ts : List String) (cfg : Cfg) :
    Except (Err × Cfg × List String) (Cfg × List String) :=
  match ts with
  | [] => .error (.oob, cfg, [])
  | t :: rest =>
    match strtonum? t 15 intMax with
    | none => .error (.range, { cfg with waittime := 0 }, t :: rest)
    | some n =>
      match rest with
      | [] => .error (.eof, { cfg with waittime := n }, [])
      | u :: rest2 =>
        if u = semiTok then .ok ({ cfg with waittime := n }, rest2)
        else .error (.expect, { cfg with waittime := n }, u :: rest2)

/- The while loop of parse_server_args: scan ["waittime" num [";"]]* until
"}" or the end of the tokens, remembering the last waittime value.  After
tok_eq_adv consumes the keyword, the C code reads p->toks[p->pos] with no
bound check (oob at the end), then tok_adv (eof at the end), then an
optional ";" via tok_eq_adv whose assert is protected by the tok_adv. -/
def server_args_go : Nat → List String → Nat → Except (Err × List String) (Nat × List String)
  | _, [], w => .ok (w, [])
  | 0, ts, w => .ok (w, ts)
  | fuel + 1, t :: rest, w =>
    if t = cbrace then .ok (w, t :: rest)
    else if t = kw_waittime then
      match rest with
      | [] => .error (.oob, [])
      | num :: rest2 =>
        match strtonum? num 15 intMax with
        | none => .error (.range, num :: rest2)
        | some w2 =>
          match rest2 with
          | [] => .error (.eof, [])
          | u :: rest3 =>
            if u = semiTok then server_args_go fuel rest3 w2
            else server_args_go fuel (u :: rest3) w2
    else .error (.unknown, t :: rest)

def server_args_loop (ts : List String) (w : Nat) : Except (Err × List String) (Nat × List String) :=
  server_args_go ts.length ts w

def setWaitAt (w : Nat) : List NConfig → Nat → List NConfig
  | [], _ => []
  | e :: t, 0 => ⟨e.url, w⟩ :: t
  | e :: t, n + 1 => e :: setWaitAt w t n

/- The propagation loop of parse_server_args: for i in [0, count),
urls[len - 1 - i].waittime = w, with len the array length. -/
def applyWaitFor (w : Nat) (len : Nat) (l : List NConfig) : Nat → List NConfig
  | 0 => l
  | i + 1 => setWaitAt w (applyWaitFor w len l i) (len - 1 - i)

/- parse_server_args: the argument block of a servers statement, called
with the tokens after the "{".  After the loop, expect-and-advance "}",
assert urlsz >= count (oob when violated), and if a waittime was set apply
it to the count hosts of this statement. -/
def parse_server_args (ts : List String) (urls : List NConfig) (count : Nat) :
    Except (Err × List String) (List NConfig × List String) :=
  match server_args_loop ts 0 with
  | .error e => .error e
  | .ok (w, ts2) =>
    match ts2 with
    | [] => .error (.eof, [])
    | t :: rest =>
      if t = cbrace then
        if urls.length < count then .error (.oob, rest)
        else if w = 0 then .ok (urls, rest)
        else .ok (applyWaitFor w urls.length urls count, rest)
      else .error (.expect, t :: rest)

/- The host loop of parse_servers: every token before ";" or "{" is
appended (the url duplicated with strdup, waittime 0 from the memset) and counted. -/
def servers_host_loop : List String → List NConfig → Nat → List NConfig × Nat × List String
  | [], urls, count => (urls, count, [])
  | t :: rest, urls, count =>
    if t = semiTok ∨ t = obrace then (urls, count, t :: rest)
    else servers_host_loop rest (urls ++ [⟨t, 0⟩]) (count + 1)

/- parse_servers: "servers" s1 [s2...] ["{" args] ";", called with the
tokens after the keyword.  Zero hosts is the no-servers-in-statement error;
then tok_nadv (eof at the end); then either the "{" block followed by a
checked ";" or the terminating ";", consumed by the unconditional
p->pos++. -/
def parse_servers (ts : List String) (cfg : Cfg) :
    Except (Err × Cfg × List String) (Cfg × List String) :=
  match servers_host_loop ts cfg.urls 0 with
  | (urls, count, ts2) =>
    if count = 0 then .error (.emptyServers, { cfg with urls := urls }, ts2)
    else
      match ts2 with
      | [] => .error (.eof, { cfg with urls := urls }, [])
      | t :: rest =>
        if t = obrace then
          match parse_server_args rest urls count with
          | .error (e, r) => .error (e, { cfg with urls := urls }, r)
          | .ok (urls2, ts3) =>
            match ts3 with
            | [] => .error (.eof, { cfg with urls := urls2 }, [])
            | u :: rest2 =>
              if u = semiTok then .ok ({ cfg with urls := urls2 }, rest2)
              else .error (.expect, { cfg with urls := urls2 }, u :: rest2)
        else .ok ({ cfg with urls := urls }, rest)

/- One option loop of parse_layout_host: consume keywords of the table,
or-ing their flags into args, until ";" or "}" (not consumed) or the end of
the tokens (the enclosing code then hits an assert), failing on anything
else. -/
def opt_loop (tbl : List (String × Nat)) : List String → Nat → Except (Err × List String) (Nat × List String)
  | [], args => .ok (args, [])
  | t :: rest, args =>
    match tbl.find? (fun kv => kv.fst = t) with
    | some kv => opt_loop tbl rest (args ||| kv.snd)
    | none =>
      if t = semiTok ∨ t = cbrace then .ok (args, t :: rest)
      else .error (.unknown, t :: rest)

/- The box loop of parse_layout_host.  Each iteration appends one box
(reallocarray plus memset in the C code; the box is committed before its
options are parsed, but on every failure path below the caller fails, so
only the boxes of completed iterations are ever observed) and then runs the
shared tail: tok_eq "}" (assert: oob at the end), expect-and-advance ";",
tok_eq "}" again (assert), and loop.  Fuel bounds the iterations; the entry
passes the token count, and every iteration consumes at least the category
keyword, so the fuel-exhausted branch is unreachable. -/
def layout_host_go : Nat → List String → List DrawBox → Except (Err × List String) (List DrawBox × List String)
  | _, [], boxes => .ok (boxes, [])
  | 0, ts, boxes => .ok (boxes, ts)
  | fuel + 1, t :: rest, boxes =>
    match boxCat t with
    | none => .error (.unknown, t :: rest)
    | some (c, i, tbl) =>
      match opt_loop tbl rest i with
      | .error e => .error e
      | .ok (args, ts2) =>
        match ts2 with
        | [] => .error (.oob, [])
        | u :: r =>
          if u = cbrace then .ok (boxes ++ [⟨c, args⟩], u :: r)
          else if u = semiTok then
            match r with
            | [] => .error (.oob, [])
            | v :: r2 =>
              if v = cbrace then .ok (boxes ++ [⟨c, args⟩], v :: r2)
              else layout_host_go fuel (v :: r2) (boxes ++ [⟨c, args⟩])
          else .error (.expect, u :: r)

/- parse_layout_host: "{" box-defs "}", called with the tokens after the
"host" keyword.  Expect-and-advance "{"; then tok_eq "}" (assert: oob at
the end), and on a match return at once WITHOUT consuming the "}" (the C
code uses tok_eq, not tok_eq_adv, at this point); otherwise run the box
loop and expect-and-advance the closing "}". -/
def parse_layout_host (ts : List String) (boxes : List DrawBox) :
    Except (Err × List String) (List DrawBox × List String) :=
  match ts with
  | [] => .error (.eof, [])
  | t :: rest =>
    if t = obrace then
      match rest with
      | [] => .error (.oob, [])
      | u :: rest2 =>
        if u = cbrace then .ok (boxes, u :: rest2)
        else
          match layout_host_go (u :: rest2).length (u :: rest2) boxes with
          | .error e => .error e
          | .ok (bs, ts2) =>
            match ts2 with
            | [] => .error (.eof, [])
            | v :: r2 =>
              if v = cbrace then .ok (bs, r2)
              else .error (.expect, v :: r2)
    else .error (.expect, t :: rest)

/- The statement loop of parse_layout: header, errlog num (the num is read
with no bound check: oob at the end), or host followed by its block; then
the shared tail tok_eq "}" (assert), expect-and-advance ";", tok_eq "}"
(assert), and loop.  The draw argument is the state of cfg->draw, already
attached to the configuration by the caller, so errors carry it. -/
def layout_go : Nat → List String → Draw → Except (Err × Draw × List String) (Draw × List String)
  | _, [], d => .ok (d, [])
  | 0, ts, d => .ok (d, ts)
  | fuel + 1, t :: rest, d =>
    match
      (if t = kw_header then .ok ({ d with header := true }, rest)
       else if t = kw_errlog then
        match rest with
        | [] => .error (.oob, d, [])
        | num :: rest2 =>
          match strtonum? num 0 intMax with
          | none => .error (.range, d, num :: rest2)
          | some n => .ok ({ d with errlog := n }, rest2)
       else if t = kw_host then
        match parse_layout_host rest d.box with
        | .error (e, r) => .error (e, d, r)
        | .ok (bs, r) => .ok ({ d with box := bs }, r)
       else .error (.unknown, d, t :: rest) :
        Except (Err × Draw × List String) (Draw × List String)) with
    | .error e => .error e
    | .ok (d2, ts2) =>
      match ts2 with
      | [] => .error (.oob, d2, [])
      | u :: r =>
        if u = cbrace then .ok (d2, u :: r)
        else if u = semiTok then
          match r with
          | [] => .error (.oob, d2, [])
          | v :: r2 =>
            if v = cbrace then .ok (d2, v :: r2)
            else layout_go fuel (v :: r2) d2
        else .error (.expect, d2, u :: r)

/- parse_layout: "layout" "{" body "}" ";", called with the tokens after
the keyword.  Expect-and-advance "{"; then tok_eq_adv "}" (assert: oob at
the end) and on a match return success at once: no draw is allocated and no
";" is consumed.  Only then the layout-already-specified check; then the
draw is allocated zeroed by calloc and attached, the statement loop runs, and the
closing "}" and ";" are expected. -/
def parse_layout (ts : List String) (cfg : Cfg) :
    Except (Err × Cfg × List String) (Cfg × List String) :=
  match ts with
  | [] => .error (.eof, cfg, [])
  | t :: rest =>
    if t = obrace then
      match rest with
      | [] => .error (.oob, cfg, [])
      | u :: rest2 =>
        if u = cbrace then .ok (cfg, rest2)
        else if cfg.draw.isSome then .error (.dup, cfg, u :: rest2)
        else
          match layout_go (u :: rest2).length (u :: rest2) ⟨false, 0, []⟩ with
          | .error (e, d, r) => .error (e, { cfg with draw := some d }, r)
          | .ok (d, ts2) =>
            match ts2 with
            | [] => .error (.eof, { cfg with draw := some d }, [])
            | v :: r2 =>
              if v = cbrace then
                match r2 with
                | [] => .error (.eof, { cfg with draw := some d }, [])
                | u2 :: r3 =>
                  if u2 = semiTok then .ok ({ cfg with draw := some d }, r3)
                  else .error (.expect, { cfg with draw := some d }, u2 :: r3)
              else .error (.expect, { cfg with draw := some d }, v :: r2)
    else .error (.expect, cfg, t :: rest)

/- The driver loop of config_parse: dispatch on servers / layout / waittime
(in source order), breaking out on a statement failure.  After the loop the
C code returns failure only when p.pos != p.toksz, so a statement failure
whose remaining tokens are empty is an overall success that keeps the
partial configuration; a crash (oob) aborts regardless. -/
def top_go : Nat → List String → Cfg → Except Err Cfg
  | _, [], cfg => .ok cfg
  | 0, _ :: _, _ => .error .unknown
  | fuel + 1, t :: rest, cfg =>
    if t = kw_servers then
      match parse_servers rest cfg with
      | .ok (cfg2, ts2) => top_go fuel ts2 cfg2
      | .error (e, cfg2, ts2) =>
        if e = .oob then .error .oob
        else if ts2 = [] then .ok cfg2 else .error e
    else if t = kw_layout then
      match parse_layout rest cfg with
      | .ok (cfg2, ts2) => top_go fuel ts2 cfg2
      | .error (e, cfg2, ts2) =>
        if e = .oob then .error .oob
        else if ts2 = [] then .ok cfg2 else .error e
    else if t = kw_waittime then
      match parse_waittime rest cfg with
      | .ok (cfg2, ts2) => top_go fuel ts2 cfg2
      | .error (e, cfg2, ts2) =>
        if e = .oob then .error .oob
        else if ts2 = [] then .ok cfg2 else .error e
    else .error .unknown

def top_loop (ts : List String) (cfg : Cfg) : Except Err Cfg := top_go ts.length ts cfg

/- config_cmdline: one url per process argument, waittime 0 (calloc), on a
configuration whose other fields are left as they are.  assert(argc) aborts
on an empty argument list. -/
def config_cmdline (cfg : Cfg) (argv : List String) : Except Err Cfg :=
  if argv = [] then .error .oob
  else .ok { cfg with urls := argv.map (fun a => ⟨a, 0⟩) }

/- The two ways config_parse can obtain its input: the file does not exist
(open fails with ENOENT) or it was read and tokenized into the given
tokens.  The other I/O failures (fstat, malloc, mmap) are fatal in the C
code and are not modelled. -/
inductive FileInput where
  | absent
  | present (toks : List String)

/- config_parse: defaults (waittime 60, nothing else), then either the
command-line fallback (file absent) or the token walk; afterwards, when
process arguments were given, the file-derived urls are freed and replaced
by the command-line list, keeping waittime and draw. -/
def config_parse (fi : FileInput) (argv : List String) : Except Err Cfg :=
  match fi with
  | .absent => config_cmdline ⟨60, [], none⟩ argv
  | .present toks =>
    match top_loop toks ⟨60, [], none⟩ with
    | .error e => .error e
    | .ok cfg =>
      if argv = [] then .ok cfg
      else config_cmdline { cfg with urls := [] } argv

/- The flag an option keyword contributes inside one category loop: the
value found in the table of that category (0 when the keyword is not an option
of the category; the loops never or such a keyword in). -/
def flagOf (tbl : List (String × Nat)) (o : String) : Nat :=
  match tbl.find? (fun kv => kv.fst = o) with
  | some kv => kv.snd
  | none => 0

/- The bitwise or of the flags of a keyword list, starting from zero (the
memset of the freshly appended box). -/
def orFlags (tbl : List (String × Nat)) (opts : List String) : Nat :=
  opts.foldl (fun a o => a ||| flagOf tbl o) 0

/- The option bits of a box lie within the mask legal for its category, and a
host box carries exactly its fixed access flag. -/
def BoxOk (b : DrawBox) : Prop :=
  b.args ||| legalMask b.cat = legalMask b.cat ∧ (b.cat = .host → b.args = HOST_ACCESS)

/- Every box of a draw is well-formed. -/
def DrawOk (d : Draw) : Prop := ∀ b ∈ d.box, BoxOk b

/- Every box of the layout of a configuration, when present, is well-formed. -/
def CfgOk (cfg : Cfg) : Prop := ∀ d, cfg.draw = some d → DrawOk d

/- The draw carried by a layout parse outcome (on failure, the state the
failing parser left in cfg->draw). -/
def eDraw : Except (Err × Draw × List String) (Draw × List String) → Draw
  | .ok (d, _) => d
  | .error (_, d, _) => d

/- The configuration carried by a statement parse outcome (on failure, the
state the failing parser left behind). -/
def eCfg : Except (Err × Cfg × List String) (Cfg × List String) → Cfg
  | .ok (c, _) => c
  | .error (_, c, _) => c

/- ===================== theorems ===================== -/

theorem servers_host_loop_append (hosts : List String) :
    ∀ (ts : List String) (urls : List NConfig) (c : Nat),
      (∀ s ∈ hosts, ¬(s = semiTok ∨ s = obrace)) →
      servers_host_loop (hosts ++ ts) urls c =
        servers_host_loop ts (urls ++ hosts.map (fun h => ⟨h, 0⟩)) (c + hosts.length) := by
  induction hosts with
  | nil => intro ts urls c _; simp
  | cons h t ih =>
    intro ts urls c hh
    have hh1 : ¬(h = semiTok ∨ h = obrace) := hh h (List.mem_cons_self h t)
    have hh2 : ∀ s ∈ t, ¬(s = semiTok ∨ s = obrace) := fun s hs => hh s (List.mem_cons_of_mem h hs)
    simp only [List.cons_append, servers_host_loop, hh1, if_false, ite_false, List.append_eq]
    have hrec := ih ts (urls ++ [(⟨h, 0⟩ : NConfig)]) (c + 1) hh2
    rw [hrec]
    simp only [List.map_cons, List.append_assoc, List.singleton_append, List.length_cons]
    congr 1
    omega

theorem setWaitAt_append_at (w : Nat) :
    ∀ (a : List NConfig) (e : NConfig) (b : List NConfig),
      setWaitAt w (a ++ e :: b) a.length = a ++ ⟨e.url, w⟩ :: b := by
  intro a
  induction a with
  | nil => intro e b; simp [setWaitAt]
  | cons x xs ih => intro e b; simp [setWaitAt, ih]

theorem applyWaitFor_append (w : Nat) :
    ∀ (b a : List NConfig),
      applyWaitFor w (a ++ b).length (a ++ b) b.length = a ++ b.map (fun e => ⟨e.url, w⟩) := by
  intro b
  induction b with
  | nil => intro a; simp [applyWaitFor]
  | cons e b2 ih =>
    intro a
    show applyWaitFor w (a ++ e :: b2).length (a ++ e :: b2) (b2.length + 1) = _
    have h2 : a ++ e :: b2 = (a ++ [e]) ++ b2 := by simp
    have h3 : applyWaitFor w (a ++ e :: b2).length (a ++ e :: b2) b2.length
        = (a ++ [e]) ++ b2.map (fun x => ⟨x.url, w⟩) := by
      rw [h2]; exact ih (a ++ [e])
    have h1 : (a ++ e :: b2).length - 1 - b2.length = a.length := by
      simp only [List.length_append, List.length_cons]
      omega
    simp only [applyWaitFor]
    rw [h3, h1]
    have h4 : (a ++ [e]) ++ b2.map (fun x => ⟨x.url, w⟩) = a ++ e :: b2.map (fun x => ⟨x.url, w⟩) := by
      simp
    rw [h4, setWaitAt_append_at]
    simp

theorem parse_servers_cont (ts : List String) (cfg : Cfg) (urls : List NConfig) (count : Nat)
    (ts2 : List String) (h : servers_host_loop ts cfg.urls 0 = (urls, count, ts2)) :
    parse_servers ts cfg =
      (if count = 0 then .error (.emptyServers, { cfg with urls := urls }, ts2)
       else
        match ts2 with
        | [] => .error (.eof, { cfg with urls := urls }, [])
        | t :: rest =>
          if t = obrace then
            match parse_server_args rest urls count with
            | .error (e, r) => .error (e, { cfg with urls := urls }, r)
            | .ok (urls2, ts3) =>
              match ts3 with
              | [] => .error (.eof, { cfg with urls := urls2 }, [])
              | u :: rest2 =>
                if u = semiTok then .ok ({ cfg with urls := urls2 }, rest2)
                else .error (.expect, { cfg with urls := urls2 }, u :: rest2)
          else .ok ({ cfg with urls := urls }, rest)) := by
  unfold parse_servers
  simp only [h]
  cases ts2 <;> rfl

/-- Claim C1: a servers statement whose host list is followed by a brace
block appends one ServerEntry per host token in order, and after the block
closes the waittime value w the block established is written onto exactly
those newly appended entries (the last N, N being the host count of this
statement) while every entry declared earlier keeps its waitTimeOverride;
when the block set no waittime (the 0 sentinel) the new entries keep the
unset override and no entry is modified, which is the same conclusion with
w = 0. -/
theorem claim_c1 (hosts blk rest : List String) (cfg : Cfg) (w : Nat)
    (hne : hosts ≠ [])
    (hh : ∀ s ∈ hosts, ¬(s = semiTok ∨ s = obrace))
    (hw : server_args_loop blk 0 = .ok (w, cbrace :: semiTok :: rest)) :
    parse_servers (hosts ++ obrace :: blk) cfg =
      .ok ({ cfg with urls := cfg.urls ++ hosts.map (fun h => ⟨h, w⟩) }, rest) := by
  have hloop : servers_host_loop (hosts ++ obrace :: blk) cfg.urls 0
      = (cfg.urls ++ hosts.map (fun h => ⟨h, 0⟩), hosts.length, obrace :: blk) := by
    rw [servers_host_loop_append hosts (obrace :: blk) cfg.urls 0 hh]
    simp [servers_host_loop]
  have hcount : hosts.length ≠ 0 := by
    intro hc; exact hne (List.length_eq_zero.mp hc)
  have hpsa : parse_server_args blk (cfg.urls ++ hosts.map (fun h => ⟨h, 0⟩)) hosts.length
      = .ok (cfg.urls ++ hosts.map (fun h => ⟨h, w⟩), semiTok :: rest) := by
    unfold parse_server_args
    rw [hw]
    have hlen : ¬((cfg.urls ++ hosts.map (fun h => (⟨h, 0⟩ : NConfig))).length < hosts.length) := by
      simp [List.length_append]
    by_cases hw0 : w = 0
    · subst hw0
      simp [hlen]
    · have happ := applyWaitFor_append w (hosts.map (fun h => (⟨h, 0⟩ : NConfig))) cfg.urls
      have hcnt : hosts.length = (hosts.map (fun h => (⟨h, 0⟩ : NConfig))).length := by simp
      simp only [hlen, if_false, ite_false, hw0]
      rw [hcnt, happ]
      simp [List.map_map, Function.comp]
  rw [parse_servers_cont (hosts ++ obrace :: blk) cfg
        (cfg.urls ++ hosts.map (fun h => ⟨h, 0⟩)) hosts.length (obrace :: blk) hloop]
  rw [if_neg hcount]
  simp only [hpsa]
  simp

theorem claim_c1_witness :
    parse_servers ["a", "b", "c", obrace, kw_waittime, "30", semiTok, cbrace, semiTok]
        ⟨60, [⟨"old", 17⟩], none⟩ =
      .ok (⟨60, [⟨"old", 17⟩, ⟨"a", 30⟩, ⟨"b", 30⟩, ⟨"c", 30⟩], none⟩, []) := by
  have h := claim_c1 ["a", "b", "c"] [kw_waittime, "30", semiTok, cbrace, semiTok] []
    ⟨60, [⟨"old", 17⟩], none⟩ 30 (by decide) (by decide) (by decide)
  simpa using h

/-- Claim C7: a servers statement consumes every token before the
semicolon or opening-brace terminator as a host address, appending one
ServerEntry per host token in order; when zero host tokens precede the
terminator the statement parser fails with the empty-server-list error. -/
theorem claim_c7 (hosts rest : List String) (cfg : Cfg)
    (hh : ∀ s ∈ hosts, ¬(s = semiTok ∨ s = obrace)) :
    (hosts ≠ [] →
      parse_servers (hosts ++ semiTok :: rest) cfg =
        .ok ({ cfg with urls := cfg.urls ++ hosts.map (fun h => ⟨h, 0⟩) }, rest)) ∧
    parse_servers (semiTok :: rest) cfg = .error (.emptyServers, cfg, semiTok :: rest) ∧
    parse_servers (obrace :: rest) cfg = .error (.emptyServers, cfg, obrace :: rest) := by
  refine ⟨?_, ?_, ?_⟩
  · intro hne
    have hloop : servers_host_loop (hosts ++ semiTok :: rest) cfg.urls 0
        = (cfg.urls ++ hosts.map (fun h => ⟨h, 0⟩), hosts.length, semiTok :: rest) := by
      rw [servers_host_loop_append hosts (semiTok :: rest) cfg.urls 0 hh]
      simp [servers_host_loop]
    rw [parse_servers_cont _ _ _ _ _ hloop]
    rw [if_neg (fun hc => hne (List.length_eq_zero.mp hc))]
    rfl
  · have hloop : servers_host_loop (semiTok :: rest) cfg.urls 0 = (cfg.urls, 0, semiTok :: rest) := by
      simp [servers_host_loop]
    rw [parse_servers_cont _ _ _ _ _ hloop]
    rfl
  · have hloop : servers_host_loop (obrace :: rest) cfg.urls 0 = (cfg.urls, 0, obrace :: rest) := by
      simp [servers_host_loop]
    rw [parse_servers_cont _ _ _ _ _ hloop]
    rfl

theorem claim_c7_witness :
    (parse_servers (["x", "y"] ++ semiTok :: []) ⟨60, [], none⟩ =
      .ok (⟨60, [⟨"x", 0⟩, ⟨"y", 0⟩], none⟩, [])) ∧
    parse_servers [semiTok] ⟨60, [], none⟩ = .error (.emptyServers, ⟨60, [], none⟩, [semiTok]) ∧
    parse_servers [obrace] ⟨60, [], none⟩ = .error (.emptyServers, ⟨60, [], none⟩, [obrace]) := by
  have h := claim_c7 ["x", "y"] [] ⟨60, [], none⟩ (by decide)
  refine ⟨?_, h.2.1, h.2.2⟩
  simpa using h.1 (by decide)

/-- Claim C2, counterexample: a file declaring an empty layout statement
twice parses successfully, so a second layout occurrence does not fail
with DuplicateSection as claimed. -/
theorem claim_c2_cex :
    config_parse (.present (tokenize "layout \x7b \x7d layout \x7b \x7d")) [] = .ok ⟨60, [], none⟩ := by
  decide

/-- Claim C2 (amended): the duplicate-section check only guards non-empty
layout blocks.  A layout statement whose block starts with a token other
than the closing brace fails with the duplicate error whenever a layout
was already created, and a file with two non-empty layout statements fails
that way on the second occurrence; an empty layout block returns before
the check (and creates no layout), so repeated empty layout statements
parse successfully. -/
theorem claim_c2 (t : String) (rest : List String) (cfg : Cfg)
    (hdraw : cfg.draw.isSome = true) (ht : t ≠ cbrace) :
    parse_layout (obrace :: t :: rest) cfg = .error (.dup, cfg, t :: rest) ∧
    config_parse
        (.present (tokenize "layout \x7b header ; \x7d ; layout \x7b header ; \x7d ;")) [] =
      .error .dup := by
  constructor
  · simp [parse_layout, ht, hdraw]
  · decide

theorem claim_c2_witness :
    parse_layout [obrace, kw_header] ⟨60, [], some ⟨false, 0, []⟩⟩ =
      .error (.dup, ⟨60, [], some ⟨false, 0, []⟩⟩, [kw_header]) :=
  (claim_c2 kw_header [] ⟨60, [], some ⟨false, 0, []⟩⟩ rfl (by decide)).1

/-- Claim C3, counterexample: a layout statement containing an empty host
block in the standard form (host block closed, then the layout closed and
terminated) fails with UnexpectedToken, so the parse does not succeed for
every file with an empty host block as claimed. -/
theorem claim_c3_cex :
    config_parse (.present (tokenize "layout \x7b host \x7b \x7d \x7d ;")) [] = .error .expect := by
  decide

/-- Claim C3 (amended): an empty host block returns without consuming its
closing brace, which the enclosing layout then takes as its own
terminator; the form that therefore succeeds is the one with no extra
closing brace, and it produces a layout with zero boxes.  An empty layout
statement creates no layout at all: the resulting configuration has
draw = none, indistinguishable from a configuration that never declared
layout. -/
theorem claim_c3 :
    config_parse (.present (tokenize "layout \x7b host \x7b \x7d ;")) [] =
      .ok ⟨60, [], some ⟨false, 0, []⟩⟩ ∧
    config_parse (.present (tokenize "layout \x7b \x7d")) [] = .ok ⟨60, [], none⟩ := by
  constructor
  · decide
  · decide

/-- Claim C4: when the file parses successfully and the process argument
list is non-empty, config_parse discards the file-derived server list and
returns one ServerEntry per argument in order with the unset override,
while the waittime and layout obtained from the file are kept unchanged. -/
theorem claim_c4 (toks : List String) (argv : List String) (cfg : Cfg)
    (hp : top_loop toks ⟨60, [], none⟩ = .ok cfg) (ha : argv ≠ []) :
    config_parse (.present toks) argv = .ok ⟨cfg.waittime, argv.map (fun a => ⟨a, 0⟩), cfg.draw⟩ := by
  simp only [config_parse]
  rw [hp]
  simp only [config_cmdline]
  rw [if_neg ha, if_neg ha]

theorem claim_c4_witness :
    config_parse (.present [kw_servers, "x", "y", semiTok]) ["z"] =
      .ok ⟨60, [⟨"z", 0⟩], none⟩ := by
  have h := claim_c4 [kw_servers, "x", "y", semiTok] ["z"] ⟨60, [⟨"x", 0⟩, ⟨"y", 0⟩], none⟩
    (by decide) (by decide)
  simpa using h

/-- Claim C5: when the file does not exist (open fails with ENOENT) and
the argument list is non-empty, config_parse succeeds with one ServerEntry
per argument in order, each with the unset override, no layout, and the
default global waittime 60. -/
theorem claim_c5 (argv : List String) (ha : argv ≠ []) :
    config_parse .absent argv = .ok ⟨60, argv.map (fun a => ⟨a, 0⟩), none⟩ := by
  simp only [config_parse, config_cmdline]
  rw [if_neg ha]

theorem claim_c5_witness :
    config_parse .absent ["h1", "h2"] = .ok ⟨60, [⟨"h1", 0⟩, ⟨"h2", 0⟩], none⟩ := by
  have h := claim_c5 ["h1", "h2"] (by decide)
  simpa using h

/-- Claim C9 (refuted, code bug): the token array is read out of bounds
on inputs that end right after a keyword.  A file whose only token is
waittime violates the assert of parse_waittime (position = token count)
before reading past the array, and a file ending right after errlog makes
parse_layout read the value token with no bound check; both evaluate to
the oob outcome in this embedding instead of staying in bounds as the
claim requires. -/
theorem claim_c9 :
    config_parse (.present [kw_waittime]) [] = .error .oob ∧
    config_parse (.present (tokenize "layout \x7b errlog")) [] = .error .oob := by
  constructor
  · decide
  · decide

theorem parse_waittime_some (s : String) (n : Nat) (rest : List String) (cfg : Cfg)
    (h : strtonum? s 15 intMax = some n) :
    parse_waittime (s :: semiTok :: rest) cfg = .ok ({ cfg with waittime := n }, rest) := by
  simp only [parse_waittime, h]
  rfl

theorem parse_waittime_none (s : String) (rest : List String) (cfg : Cfg)
    (h : strtonum? s 15 intMax = none) :
    parse_waittime (s :: rest) cfg = .error (.range, { cfg with waittime := 0 }, s :: rest) := by
  simp only [parse_waittime, h]

theorem digit_head_facts (c : Char) (cs : List Char) (n : Nat)
    (h : parseDec? (c :: cs) = some n) : c ≠ '-' ∧ c ≠ '+' := by
  unfold parseDec? parseDecAux at h
  cases hdv : digitVal? c with
  | none => rw [hdv] at h; cases h
  | some d =>
    unfold digitVal? at hdv
    split at hdv
    · rename_i hc
      constructor
      · intro he; subst he; exact absurd hc.1 (by decide)
      · intro he; subst he; exact absurd hc.1 (by decide)
    · cases hdv

/-- Claim C6: for a top-level waittime statement, a token accepted by
strtonum with bounds 15 and max-int yields that value as the global
waittime, a rejected token fails with the range error; and strtonum
accepts an unsigned digit token exactly when its value n satisfies
15 <= n <= max-int, while a token whose leading character is neither a
digit nor a sign is always rejected. -/
theorem claim_c6 (s : String) (n : Nat) :
    (strtonum? s 15 intMax = some n →
      config_parse (.present [kw_waittime, s, semiTok]) [] = .ok ⟨n, [], none⟩) ∧
    (strtonum? s 15 intMax = none →
      config_parse (.present [kw_waittime, s, semiTok]) [] = .error .range) ∧
    (parseDec? s.data = some n → (strtonum? s 15 intMax = some n ↔ 15 ≤ n ∧ n ≤ intMax)) ∧
    (∀ c cs, s.data = c :: cs → c ≠ '-' → c ≠ '+' → parseDec? s.data = none →
      strtonum? s 15 intMax = none) := by
  refine ⟨?_, ?_, ?_, ?_⟩
  · intro h
    simp only [config_parse, top_loop, List.length_cons, List.length_nil, top_go, if_true]
    rw [parse_waittime_some s n [] ⟨60, [], none⟩ h]
    rfl
  · intro h
    simp only [config_parse, top_loop, List.length_cons, List.length_nil, top_go, if_true]
    rw [parse_waittime_none s [semiTok] ⟨60, [], none⟩ h]
    rfl
  · intro hp
    cases hs : s.data with
    | nil => rw [hs] at hp; simp [parseDec?] at hp
    | cons c cs =>
      rw [hs] at hp
      obtain ⟨hm, hpl⟩ := digit_head_facts c cs n hp
      have hstn : strtonum? s 15 intMax = (if 15 ≤ n ∧ n ≤ intMax then some n else none) := by
        unfold strtonum?
        rw [hs]
        simp only [if_neg hm, if_neg hpl, hp]
      rw [hstn]
      split_ifs with hc
      · simp [hc]
      · simp [hc]
  · intro c cs hs hm hpl hp
    rw [hs] at hp
    unfold strtonum?
    rw [hs]
    simp only [if_neg hm, if_neg hpl, hp]

theorem claim_c6_witness :
    (config_parse (.present [kw_waittime, "60", semiTok]) [] = .ok ⟨60, [], none⟩) ∧
    (config_parse (.present [kw_waittime, "14", semiTok]) [] = .error .range) ∧
    (strtonum? "60" 15 intMax = some 60 ↔ 15 ≤ 60 ∧ 60 ≤ intMax) ∧
    strtonum? "abc" 15 intMax = none := by
  refine ⟨?_, ?_, ?_, ?_⟩
  · exact (claim_c6 "60" 60).1 (by decide)
  · exact (claim_c6 "14" 0).2.1 (by decide)
  · exact (claim_c6 "60" 60).2.2.1 (by decide)
  · exact (claim_c6 "abc" 0).2.2.2 'a' ['b', 'c'] (by decide) (by decide) (by decide) (by decide)

theorem foldl_lor_acc (f : String → Nat) :
    ∀ (l : List String) (a : Nat),
      l.foldl (fun x o => x ||| f o) a = a ||| l.foldl (fun x o => x ||| f o) 0 := by
  intro l
  induction l with
  | nil => intro a; simp
  | cons o t ih =>
    intro a
    simp only [List.foldl]
    rw [ih (a ||| f o), ih (0 ||| f o)]
    simp [Nat.zero_or, Nat.lor_assoc]

theorem foldl_lor_mem (f : String → Nat) :
    ∀ (l : List String) (o : String), o ∈ l →
      f o ||| l.foldl (fun x p => x ||| f p) 0 = l.foldl (fun x p => x ||| f p) 0 := by
  intro l
  induction l with
  | nil => intro o ho; cases ho
  | cons h t ih =>
    intro o ho
    simp only [List.foldl]
    rw [foldl_lor_acc f t (0 ||| f h), Nat.zero_or]
    rcases List.mem_cons.mp ho with he | ht
    · subst he
      rw [← Nat.lor_assoc, Nat.or_self]
    · rw [← Nat.lor_assoc, Nat.lor_comm (f o) (f h), Nat.lor_assoc, ih o ht]

theorem foldl_lor_subset (f : String → Nat) :
    ∀ (l1 l2 : List String), (∀ o ∈ l1, o ∈ l2) →
      l1.foldl (fun x o => x ||| f o) 0 ||| l2.foldl (fun x o => x ||| f o) 0 =
        l2.foldl (fun x o => x ||| f o) 0 := by
  intro l1
  induction l1 with
  | nil => intro l2 _; simp [Nat.zero_or]
  | cons h t ih =>
    intro l2 hs
    simp only [List.foldl]
    rw [foldl_lor_acc f t (0 ||| f h), Nat.zero_or]
    rw [Nat.lor_assoc, ih l2 (fun o ho => hs o (List.mem_cons_of_mem h ho)),
      foldl_lor_mem f l2 h (hs h (List.mem_cons_self h t))]

theorem opt_loop_run (tbl : List (String × Nat)) (term : String)
    (hterm : term = semiTok ∨ term = cbrace)
    (htf : tbl.find? (fun kv => kv.fst = term) = none) :
    ∀ (opts : List String) (rest : List String) (a : Nat),
      (∀ o ∈ opts, (tbl.find? (fun kv => kv.fst = o)).isSome = true) →
      opt_loop tbl (opts ++ term :: rest) a =
        .ok (opts.foldl (fun x o => x ||| flagOf tbl o) a, term :: rest) := by
  intro opts
  induction opts with
  | nil =>
    intro rest a _
    simp only [List.nil_append, opt_loop, htf, List.foldl]
    rw [if_pos hterm]
  | cons o t ih =>
    intro rest a ho
    have h1 : (tbl.find? (fun kv => kv.fst = o)).isSome = true := ho o (List.mem_cons_self o t)
    obtain ⟨kv, hkv⟩ := Option.isSome_iff_exists.mp h1
    simp only [List.cons_append, opt_loop, hkv, List.append_eq]
    rw [ih rest (a ||| kv.snd) (fun p hp => ho p (List.mem_cons_of_mem o hp))]
    have hfo : flagOf tbl o = kv.snd := by simp [flagOf, hkv]
    simp [List.foldl, hfo]

/-- Claim C10: a category option loop that reads a list of recognized
option keywords and stops at a terminator returns the bitwise or of the
flags of the keywords starting from zero; consequently two keyword lists with
the same membership (in particular reorderings or lists with repeated
keywords) produce the same option value. -/
theorem claim_c10 (tbl : List (String × Nat)) (opts opts2 : List String) (term : String)
    (rest : List String)
    (h1 : ∀ o ∈ opts, (tbl.find? (fun kv => kv.fst = o)).isSome = true)
    (h2 : ∀ o ∈ opts2, (tbl.find? (fun kv => kv.fst = o)).isSome = true)
    (hterm : term = semiTok ∨ term = cbrace)
    (htf : tbl.find? (fun kv => kv.fst = term) = none)
    (hmem : ∀ o, o ∈ opts ↔ o ∈ opts2) :
    opt_loop tbl (opts ++ term :: rest) 0 = .ok (orFlags tbl opts, term :: rest) ∧
    opt_loop tbl (opts2 ++ term :: rest) 0 = .ok (orFlags tbl opts2, term :: rest) ∧
    orFlags tbl opts = orFlags tbl opts2 := by
  refine ⟨?_, ?_, ?_⟩
  · exact opt_loop_run tbl term hterm htf opts rest 0 h1
  · exact opt_loop_run tbl term hterm htf opts2 rest 0 h2
  · have ha := foldl_lor_subset (flagOf tbl) opts opts2 (fun o ho => (hmem o).mp ho)
    have hb := foldl_lor_subset (flagOf tbl) opts2 opts (fun o ho => (hmem o).mpr ho)
    unfold orFlags
    calc opts.foldl (fun a o => a ||| flagOf tbl o) 0
        = opts2.foldl (fun a o => a ||| flagOf tbl o) 0 |||
            opts.foldl (fun a o => a ||| flagOf tbl o) 0 := hb.symm
      _ = opts.foldl (fun a o => a ||| flagOf tbl o) 0 |||
            opts2.foldl (fun a o => a ||| flagOf tbl o) 0 := Nat.lor_comm _ _
      _ = opts2.foldl (fun a o => a ||| flagOf tbl o) 0 := ha

theorem claim_c10_witness :
    opt_loop cpuOpts (["hour", "day", "hour"] ++ semiTok :: []) 0 =
      .ok (orFlags cpuOpts ["hour", "day", "hour"], semiTok :: []) ∧
    opt_loop cpuOpts (["day", "hour"] ++ semiTok :: []) 0 =
      .ok (orFlags cpuOpts ["day", "hour"], semiTok :: []) ∧
    orFlags cpuOpts ["hour", "day", "hour"] = orFlags cpuOpts ["day", "hour"] :=
  claim_c10 cpuOpts ["hour", "day", "hour"] ["day", "hour"] semiTok []
    (by decide) (by decide) (Or.inl rfl) (by decide)
    (by intro o; simp only [List.mem_cons, List.not_mem_nil, or_false]; tauto)

theorem lor_mask_trans (a b m : Nat) (ha : a ||| m = m) (hb : b ||| m = m) :
    (a ||| b) ||| m = m := by
  rw [Nat.lor_assoc, hb, ha]

theorem opt_loop_mask (tbl : List (String × Nat)) (m : Nat)
    (hm : ∀ kv ∈ tbl, kv.snd ||| m = m) :
    ∀ (ts : List String) (args args2 : Nat) (r : List String),
      args ||| m = m → opt_loop tbl ts args = .ok (args2, r) → args2 ||| m = m := by
  intro ts
  induction ts with
  | nil =>
    intro args args2 r ha h
    simp only [opt_loop, Except.ok.injEq, Prod.mk.injEq] at h
    rw [← h.1]
    exact ha
  | cons t rest ih =>
    intro args args2 r ha h
    simp only [opt_loop] at h
    split at h
    · rename_i kv hkv
      exact ih (args ||| kv.snd) args2 r
        (lor_mask_trans args kv.snd m ha (hm kv (List.mem_of_find?_eq_some hkv))) h
    · split at h
      · simp only [Except.ok.injEq, Prod.mk.injEq] at h
        rw [← h.1]
        exact ha
      · exact Except.noConfusion h

theorem opt_loop_nil_args (ts : List String) (args args2 : Nat) (r : List String)
    (h : opt_loop [] ts args = .ok (args2, r)) : args2 = args := by
  cases ts with
  | nil =>
    simp only [opt_loop, Except.ok.injEq, Prod.mk.injEq] at h
    exact h.1.symm
  | cons t rest =>
    simp only [opt_loop, List.find?_nil] at h
    split at h
    · simp only [Except.ok.injEq, Prod.mk.injEq] at h
      exact h.1.symm
    · exact Except.noConfusion h

theorem boxCat_ok (t : String) (c : DrawCat) (i : Nat) (tbl : List (String × Nat))
    (h : boxCat t = some (c, i, tbl)) :
    i ||| legalMask c = legalMask c ∧ (∀ kv ∈ tbl, kv.snd ||| legalMask c = legalMask c) ∧
    (c = .host → tbl = [] ∧ i = HOST_ACCESS) := by
  unfold boxCat at h
  split_ifs at h <;>
    first
      | exact Option.noConfusion h
      | · simp only [Option.some.injEq, Prod.mk.injEq] at h
          obtain ⟨hc, hi, htbl⟩ := h
          subst hc
          subst hi
          subst htbl
          refine ⟨by decide, by decide, by decide⟩

theorem layout_host_go_ok :
    ∀ (fuel : Nat) (ts : List String) (boxes bs : List DrawBox) (r : List String),
      (∀ b ∈ boxes, BoxOk b) → layout_host_go fuel ts boxes = .ok (bs, r) →
      ∀ b ∈ bs, BoxOk b := by
  intro fuel
  induction fuel with
  | zero =>
    intro ts boxes bs r hb h
    cases ts <;>
    · simp only [layout_host_go, Except.ok.injEq, Prod.mk.injEq] at h
      rw [← h.1]
      exact hb
  | succ n ih =>
    intro ts boxes bs r hb h
    cases ts with
    | nil =>
      simp only [layout_host_go, Except.ok.injEq, Prod.mk.injEq] at h
      rw [← h.1]
      exact hb
    | cons t rest =>
      simp only [layout_host_go] at h
      split at h
      · exact Except.noConfusion h
      · rename_i c i tbl hbc
        split at h
        · exact Except.noConfusion h
        · rename_i args ts2 hol
          obtain ⟨hmi, hmtbl, hhost⟩ := boxCat_ok t c i tbl hbc
          have hargs : args ||| legalMask c = legalMask c :=
            opt_loop_mask tbl (legalMask c) hmtbl rest i args ts2 hmi hol
          have hbox : BoxOk ⟨c, args⟩ := by
            refine ⟨hargs, ?_⟩
            intro hch
            obtain ⟨htbl0, hi0⟩ := hhost hch
            subst htbl0
            have hai := opt_loop_nil_args rest i args ts2 hol
            show args = HOST_ACCESS
            rw [hai, hi0]
          have hb2 : ∀ b ∈ boxes ++ [(⟨c, args⟩ : DrawBox)], BoxOk b := by
            intro b hbm
            rcases List.mem_append.mp hbm with h1 | h1
            · exact hb b h1
            · rw [List.mem_singleton.mp h1]
              exact hbox
          split at h
          · exact Except.noConfusion h
          · rename_i u r2
            split at h
            · simp only [Except.ok.injEq, Prod.mk.injEq] at h
              rw [← h.1]
              exact hb2
            · split at h
              · split at h
                · exact Except.noConfusion h
                · rename_i v r3
                  split at h
                  · simp only [Except.ok.injEq, Prod.mk.injEq] at h
                    rw [← h.1]
                    exact hb2
                  · exact ih (v :: r3) (boxes ++ [⟨c, args⟩]) bs r hb2 h
              · exact Except.noConfusion h

theorem parse_layout_host_ok (ts : List String) (boxes bs : List DrawBox) (r : List String)
    (hb : ∀ b ∈ boxes, BoxOk b) (h : parse_layout_host ts boxes = .ok (bs, r)) :
    ∀ b ∈ bs, BoxOk b := by
  unfold parse_layout_host at h
  split at h
  · exact Except.noConfusion h
  · rename_i t rest
    split at h
    · split at h
      · exact Except.noConfusion h
      · rename_i u rest2
        split at h
        · simp only [Except.ok.injEq, Prod.mk.injEq] at h
          rw [← h.1]
          exact hb
        · split at h
          · exact Except.noConfusion h
          · rename_i x bs2 ts2 hgo
            split at h
            · exact Except.noConfusion h
            · rename_i v r2
              split at h
              · simp only [Except.ok.injEq, Prod.mk.injEq] at h
                rw [← h.1]
                exact layout_host_go_ok (u :: rest2).length (u :: rest2) boxes bs2 (v :: r2) hb hgo
              · exact Except.noConfusion h
    · exact Except.noConfusion h

theorem layout_go_ok :
    ∀ (fuel : Nat) (ts : List String) (d : Draw),
      DrawOk d → DrawOk (eDraw (layout_go fuel ts d)) := by
  intro fuel
  induction fuel with
  | zero =>
    intro ts d hd
    cases ts <;> simpa only [layout_go, eDraw] using hd
  | succ n ih =>
    intro ts d hd
    cases ts with
    | nil => simpa only [layout_go, eDraw] using hd
    | cons t rest =>
      show DrawOk (eDraw (layout_go (n + 1) (t :: rest) d))
      simp only [layout_go]
      split
      · rename_i e heq
        simp only [eDraw]
        split at heq
        · exact Except.noConfusion heq
        · split at heq
          · split at heq
            · simp only [Except.error.injEq] at heq
              rw [← heq]
              exact hd
            · split at heq
              · simp only [Except.error.injEq] at heq
                rw [← heq]
                exact hd
              · exact Except.noConfusion heq
          · split at heq
            · split at heq
              · rename_i e2 r2 hph
                simp only [Except.error.injEq] at heq
                rw [← heq]
                exact hd
              · exact Except.noConfusion heq
            · simp only [Except.error.injEq] at heq
              rw [← heq]
              exact hd
      · rename_i d2 ts2 heq
        have hd2 : DrawOk d2 := by
          split at heq
          · simp only [Except.ok.injEq, Prod.mk.injEq] at heq
            rw [← heq.1]
            exact hd
          · split at heq
            · split at heq
              · exact Except.noConfusion heq
              · split at heq
                · exact Except.noConfusion heq
                · simp only [Except.ok.injEq, Prod.mk.injEq] at heq
                  rw [← heq.1]
                  exact hd
            · split at heq
              · split at heq
                · exact Except.noConfusion heq
                · rename_i x bs2 r2 hph
                  simp only [Except.ok.injEq, Prod.mk.injEq] at heq
                  rw [← heq.1]
                  intro b hbm
                  exact parse_layout_host_ok rest d.box bs2 r2 hd hph b hbm
              · exact Except.noConfusion heq
        split
        · simp only [eDraw]
          exact hd2
        · rename_i u r2
          split
          · simp only [eDraw]
            exact hd2
          · split
            · split
              · simp only [eDraw]
                exact hd2
              · rename_i v r3
                split
                · simp only [eDraw]
                  exact hd2
                · exact ih (v :: r3) d2 hd2
            · simp only [eDraw]
              exact hd2

theorem parse_layout_ok (ts : List String) (cfg : Cfg) (hc : CfgOk cfg) :
    CfgOk (eCfg (parse_layout ts cfg)) := by
  have hkey : ∀ dd : Draw, DrawOk dd → CfgOk { cfg with draw := some dd } := by
    intro dd hdd d' hd'
    have he : dd = d' := Option.some.inj hd'
    rw [← he]
    exact hdd
  unfold parse_layout
  split
  · simpa only [eCfg] using hc
  · rename_i t rest
    split
    · split
      · simpa only [eCfg] using hc
      · rename_i u rest2
        split
        · simpa only [eCfg] using hc
        · split
          · simpa only [eCfg] using hc
          · have hgo := layout_go_ok (u :: rest2).length (u :: rest2) ⟨false, 0, []⟩
              (by intro b hb; cases hb)
            split
            · rename_i x e d r heq
              simp only [eCfg]
              rw [heq] at hgo
              simp only [eDraw] at hgo
              exact hkey d hgo
            · rename_i x d ts2 heq
              rw [heq] at hgo
              simp only [eDraw] at hgo
              split
              · simp only [eCfg]
                exact hkey d hgo
              · rename_i v r2
                split
                · split
                  · simp only [eCfg]
                    exact hkey d hgo
                  · rename_i u2 r3
                    split
                    · simp only [eCfg]
                      exact hkey d hgo
                    · simp only [eCfg]
                      exact hkey d hgo
                · simp only [eCfg]
                  exact hkey d hgo
    · simpa only [eCfg] using hc

theorem parse_servers_draw (ts : List String) (cfg : Cfg) :
    (eCfg (parse_servers ts cfg)).draw = cfg.draw := by
  rcases hsl : servers_host_loop ts cfg.urls 0 with ⟨urls, count, ts2⟩
  unfold parse_servers
  simp only [hsl]
  repeat' split
  all_goals simp only [eCfg]

theorem parse_waittime_draw (ts : List String) (cfg : Cfg) :
    (eCfg (parse_waittime ts cfg)).draw = cfg.draw := by
  unfold parse_waittime
  repeat' split
  all_goals simp only [eCfg]

theorem config_cmdline_draw (cfg : Cfg) (argv : List String) (cfg2 : Cfg)
    (h : config_cmdline cfg argv = .ok cfg2) : cfg2.draw = cfg.draw := by
  unfold config_cmdline at h
  split at h
  · exact Except.noConfusion h
  · simp only [Except.ok.injEq] at h
    rw [← h]

theorem top_go_ok :
    ∀ (fuel : Nat) (ts : List String) (cfg cfg2 : Cfg),
      CfgOk cfg → top_go fuel ts cfg = .ok cfg2 → CfgOk cfg2 := by
  intro fuel
  induction fuel with
  | zero =>
    intro ts cfg cfg2 hc h
    cases ts with
    | nil =>
      simp only [top_go, Except.ok.injEq] at h
      rw [← h]
      exact hc
    | cons t rest =>
      simp only [top_go] at h
      exact Except.noConfusion h
  | succ n ih =>
    intro ts cfg cfg2 hc h
    cases ts with
    | nil =>
      simp only [top_go, Except.ok.injEq] at h
      rw [← h]
      exact hc
    | cons t rest =>
      simp only [top_go] at h
      split at h
      · split at h
        · rename_i x cfg3 ts3 hps
          have hd : cfg3.draw = cfg.draw := by
            have hp := parse_servers_draw rest cfg
            rw [hps] at hp
            simpa only [eCfg] using hp
          exact ih ts3 cfg3 cfg2 (fun d hd2 => hc d (by rw [← hd]; exact hd2)) h
        · rename_i x e cfg3 ts3 hps
          split at h
          · exact Except.noConfusion h
          · split at h
            · simp only [Except.ok.injEq] at h
              have hd : cfg3.draw = cfg.draw := by
                have hp := parse_servers_draw rest cfg
                rw [hps] at hp
                simpa only [eCfg] using hp
              rw [← h]
              exact fun d hd2 => hc d (by rw [← hd]; exact hd2)
            · exact Except.noConfusion h
      · split at h
        · split at h
          · rename_i x cfg3 ts3 hpl
            have hok : CfgOk cfg3 := by
              have hp := parse_layout_ok rest cfg hc
              rw [hpl] at hp
              simpa only [eCfg] using hp
            exact ih ts3 cfg3 cfg2 hok h
          · rename_i x e cfg3 ts3 hpl
            split at h
            · exact Except.noConfusion h
            · split at h
              · simp only [Except.ok.injEq] at h
                have hok : CfgOk cfg3 := by
                  have hp := parse_layout_ok rest cfg hc
                  rw [hpl] at hp
                  simpa only [eCfg] using hp
                rw [← h]
                exact hok
              · exact Except.noConfusion h
        · split at h
          · split at h
            · rename_i x cfg3 ts3 hpw
              have hd : cfg3.draw = cfg.draw := by
                have hp := parse_waittime_draw rest cfg
                rw [hpw] at hp
                simpa only [eCfg] using hp
              exact ih ts3 cfg3 cfg2 (fun d hd2 => hc d (by rw [← hd]; exact hd2)) h
            · rename_i x e cfg3 ts3 hpw
              split at h
              · exact Except.noConfusion h
              · split at h
                · simp only [Except.ok.injEq] at h
                  have hd : cfg3.draw = cfg.draw := by
                    have hp := parse_waittime_draw rest cfg
                    rw [hpw] at hp
                    simpa only [eCfg] using hp
                  rw [← h]
                  exact fun d hd2 => hc d (by rw [← hd]; exact hd2)
                · exact Except.noConfusion h
          · exact Except.noConfusion h

/-- Claim C8: every box of a successfully parsed configuration carries
option bits drawn only from the mask legal for its category, a host box
carrying exactly its fixed access flag; and a token inside a category
block that is neither an option keyword of that category nor a terminator
fails the parse with UnknownToken, as on the cpu block containing the
unknown word foo. -/
theorem claim_c8 (fi : FileInput) (argv : List String) (cfg : Cfg) (d : Draw) (b : DrawBox)
    (h : config_parse fi argv = .ok cfg) (hd : cfg.draw = some d) (hb : b ∈ d.box) :
    BoxOk b ∧
    config_parse (.present (tokenize "layout \x7b host \x7b cpu foo ; \x7d \x7d ;")) [] =
      .error .unknown := by
  refine ⟨?_, by decide⟩
  cases fi with
  | absent =>
    simp only [config_parse] at h
    have hdr := config_cmdline_draw ⟨60, [], none⟩ argv cfg h
    rw [hdr] at hd
    exact Option.noConfusion hd
  | present toks =>
    simp only [config_parse] at h
    split at h
    · exact Except.noConfusion h
    · rename_i cfg3 htl
      unfold top_loop at htl
      have hok : CfgOk cfg3 :=
        top_go_ok toks.length toks ⟨60, [], none⟩ cfg3
          (fun d2 hd2 => Option.noConfusion hd2) htl
      split at h
      · simp only [Except.ok.injEq] at h
        exact hok d (by rw [h]; exact hd) b hb
      · have hdr := config_cmdline_draw { cfg3 with urls := [] } argv cfg h
        exact hok d (by rw [← hdr, hd]) b hb

theorem claim_c8_witness :
    BoxOk ⟨.cpu, 8⟩ ∧
    config_parse (.present (tokenize "layout \x7b host \x7b cpu foo ; \x7d \x7d ;")) [] =
      .error .unknown :=
  claim_c8 (.present (tokenize "layout \x7b host \x7b cpu hour \x7d ; \x7d ;")) []
    ⟨60, [], some ⟨false, 0, [⟨.cpu, 8⟩]⟩⟩ ⟨false, 0, [⟨.cpu, 8⟩]⟩ ⟨.cpu, 8⟩
    (by decide) rfl (by decide)
